import Mathlib

/-!
Verification development for the sfdx-scanner custom rule path registry
(`src/lib/CustomRulePathManager.ts`) and the eslint engine helpers
(`src/lib/eslint/BaseEslintEngine.ts`, `src/lib/eslint/EslintCommons.ts`).

JavaScript `Map`s and plain objects are modelled as insertion-ordered
association lists.  `Map.set` updates the value in place when the key is
already present and appends otherwise; `Map.get`/`Map.has` compare keys with
SameValueZero, so an object reference or `undefined` used as a probe never
equals a string key.  JS `Set`s are modelled as duplicate-free lists in
insertion order.  Fallible code returns `Except`.
-/

set_option maxHeartbeats 1000000

/-- First-match lookup in an association list: the JS `Map.get` /
property-access semantics (insertion order, first occurrence wins; keys are
unique in real JS maps so first = only). -/
def lookupA {α β : Type} [DecidableEq α] : List (α × β) → α → Option β
  | [], _ => none
  | (k, v) :: t, k' => if k' = k then some v else lookupA t k'

/-- JS `Map.set` / object property assignment: replace the value in place if
the key is present, append at the end otherwise. -/
def setA {α β : Type} [DecidableEq α] : List (α × β) → α → β → List (α × β)
  | [], k, v => [(k, v)]
  | (k0, v0) :: t, k, v => if k0 = k then (k0, v) :: t else (k0, v0) :: setA t k v

/-- JS `Set.add`: append if absent, keep the position otherwise. -/
def setAdd (s : List String) (x : String) : List String :=
  if x ∈ s then s else s ++ [x]

/-- JS `String.prototype.endsWith` (suffix test on the character
sequence). -/
def jsEndsWith (s suffix : String) : Bool :=
  suffix.data.isSuffixOf s.data

/-- JS `str.indexOf(sub) === 0`, i.e. `str` starts with `sub`. -/
def jsStartsWith (s pre : String) : Bool :=
  pre.data.isPrefixOf s.data

/-- JS `'' === s.trim()`: every character of `s` is whitespace. -/
def isBlank (s : String) : Bool :=
  s.data.all (fun c => c.isWhitespace)

deriving instance DecidableEq for Except

@[simp] theorem lookupA_nil {α β : Type} [DecidableEq α] (k : α) :
    lookupA ([] : List (α × β)) k = none := rfl

theorem lookupA_setA {α β : Type} [DecidableEq α] (m : List (α × β)) (k k' : α) (v : β) :
    lookupA (setA m k v) k' = if k' = k then some v else lookupA m k' := by
  induction m with
  | nil => simp [setA, lookupA]
  | cons hd t ih =>
      obtain ⟨k0, v0⟩ := hd
      by_cases h0 : k0 = k
      · subst h0
        by_cases h1 : k' = k0 <;> simp [setA, lookupA, h1]
      · by_cases h1 : k' = k0
        · subst h1
          simp [setA, lookupA, h0, Ne.symm h0]
        · simp [setA, lookupA, h0, h1, ih]

theorem setA_self {α β : Type} [DecidableEq α] (m : List (α × β)) (k : α) (v : β)
    (h : lookupA m k = some v) : setA m k v = m := by
  induction m with
  | nil => simp [lookupA] at h
  | cons hd t ih =>
      obtain ⟨k0, v0⟩ := hd
      by_cases h1 : k = k0
      · subst h1
        simp [lookupA] at h
        simp [setA, h]
      · simp [lookupA, h1] at h
        simp [setA, Ne.symm h1, ih h]

theorem mem_setAdd (s : List String) (x : String) : x ∈ setAdd s x := by
  by_cases h : x ∈ s <;> simp [setAdd, h]

theorem mem_setAdd_of_mem {s : List String} {y : String} (x : String)
    (h : y ∈ s) : y ∈ setAdd s x := by
  by_cases hx : x ∈ s <;> simp [setAdd, hx, h]

theorem setAdd_of_mem {s : List String} {x : String} (h : x ∈ s) : setAdd s x = s := by
  simp [setAdd, h]

/-! ## Filesystem model and `expandPaths`

`FileHandler.stats` either throws (path does not exist) or reports a file, a
directory (with its non-recursive listing), or some other filesystem entry
(neither `isFile()` nor `isDirectory()`). `path.resolve(p, file)` is kept
abstract as a `resolve` parameter. -/

inductive FSEntry : Type where
  | file : FSEntry
  | dir (entries : List String) : FSEntry
  | other : FSEntry
  | absent : FSEntry
deriving DecidableEq

/-- The errors thrown by the modelled code: `errors.invalidFilePath` from
`expandPaths`, the `TypeError` raised by calling `.getName()` on an
`undefined` engine, `errors.readCustomRulePathFileFailed` from `initialize`,
and a propagated `JSON.parse` error. -/
inductive JsError : Type where
  | invalidFilePath (p : String) : JsError
  | typeError (msg : String) : JsError
  | readFailed (msg : String) : JsError
  | parseFailed (msg : String) : JsError
deriving DecidableEq

/-- `CustomRulePathManager.expandPaths` (lines 216-246): for each pattern,
`stats` failure throws `errors.invalidFilePath`; a file is kept only when it
ends in `.jar`; a directory contributes its non-recursively listed entries
ending in `.jar`, each passed through `path.resolve`. -/
def expandPaths (fs : String → FSEntry) (resolve : String → String → String) :
    List String → Except JsError (List String)
  | [] => .ok []
  | p :: rest =>
    match fs p with
    | .absent => .error (.invalidFilePath p)
    | .file =>
        (expandPaths fs resolve rest).map
          (fun r => (if jsEndsWith p ".jar" then [p] else []) ++ r)
    | .dir files =>
        (expandPaths fs resolve rest).map
          (fun r => (files.filter (fun f => jsEndsWith f ".jar")).map (resolve p) ++ r)
    | .other => expandPaths fs resolve rest

/-! ## The registry map

`RulePathMap = Map<string, Map<string, Set<string>>>`.  The outer map's keys
are modelled as `JsValue` because `getMatchingPaths` and
`removePathsForLanguage` probe the map with the raw result of
`determineEngineForPath` (a `RuleEngine` object reference, or `undefined`),
while `addPathsForLanguage` and `convertJsonDataToMap` store string keys.
SameValueZero equality: references are compared by identity (`id`), and no
cross-kind values are equal. -/

inductive JsValue : Type where
  | str (s : String) : JsValue
  | engineRef (id : Nat) : JsValue
  | undefined : JsValue
deriving DecidableEq

/-- A `RuleEngine` service: its name, its `matchPath` predicate, and an `id`
standing for the JS object reference identity of the singleton instance. -/
structure RuleEngine : Type where
  id : Nat
  name : String
  matchPath : String → Bool

abbrev RulePathEntry := List (String × List String)
abbrev RulePathMap := List (JsValue × RulePathEntry)

/-- `determineEngineForPath` (lines 190-192): first engine whose `matchPath`
matches, `undefined` if none. -/
def determineEngineForPath (engines : List RuleEngine) (p : String) : Option RuleEngine :=
  engines.find? (fun e => e.matchPath p)

/-- The JS value `this.determineEngineForPath(p)` used directly as a `Map`
key by `getMatchingPaths` and `removePathsForLanguage`. -/
def engineProbe (engines : List RuleEngine) (p : String) : JsValue :=
  match determineEngineForPath engines p with
  | some e => .engineRef e.id
  | none => .undefined

/-- The body of the `forEach` in `addPathsForLanguage` (lines 84-96) for one
expanded entry, once the engine has been determined: create the engine's
outer entry if missing, then either create the language entry as a fresh
one-element set or add to the existing set. -/
def addEntry (m : RulePathMap) (engineName lang entry : String) : RulePathMap :=
  let m1 := if (lookupA m (JsValue.str engineName)).isNone
            then setA m (JsValue.str engineName) [] else m
  match lookupA m1 (JsValue.str engineName) with
  | none => m1
  | some inner =>
    match lookupA inner lang with
    | none => setA m1 (JsValue.str engineName) (setA inner lang [entry])
    | some s => setA m1 (JsValue.str engineName) (setA inner lang (setAdd s entry))

/-- The full `forEach` of `addPathsForLanguage`: when no engine matches an
entry, the code calls `engine.getName()` on `undefined`, which raises a
`TypeError`. -/
def addPathsCore (engines : List RuleEngine) (lang : String) :
    List String → RulePathMap → Except JsError RulePathMap
  | [], m => .ok m
  | e :: rest, m =>
    match determineEngineForPath engines e with
    | none => .error (.typeError "Cannot read properties of undefined")
    | some eng => addPathsCore engines lang rest (addEntry m eng.name lang e)

/-- `addPathsForLanguage` (lines 78-100): expand the patterns, attribute and
insert each expanded entry, return the expanded entries together with the
updated in-memory registry (the persisted write is derived from the map). -/
def addPathsForLanguage (engines : List RuleEngine) (fs : String → FSEntry)
    (resolve : String → String → String) (lang : String) (ps : List String)
    (m : RulePathMap) : Except JsError (List String × RulePathMap) := do
  let entries ← expandPaths fs resolve ps
  let m' ← addPathsCore engines lang entries m
  return (entries, m')

/-- `getMatchingPaths` (lines 102-122): expand the patterns and keep the
expanded paths present in the registry — probing the outer map with the raw
`determineEngineForPath` result (`const e = this.determineEngineForPath(p)`,
then `this.pathsByLanguageByEngine.has(e)`). -/
def getMatchingPaths (engines : List RuleEngine) (fs : String → FSEntry)
    (resolve : String → String → String) (lang : String) (ps : List String)
    (m : RulePathMap) : Except JsError (List String) := do
  let expanded ← expandPaths fs resolve ps
  return expanded.filter (fun p =>
    match lookupA m (engineProbe engines p) with
    | none => false
    | some inner =>
      match lookupA inner lang with
      | none => false
      | some s => decide (p ∈ s))

/-- One step of `removePathsForLanguage` (lines 134-144): if the probe and
the language are both present, `Set.delete` the path, reporting whether it
was actually deleted. -/
def removeOne (m : RulePathMap) (probe : JsValue) (lang p : String) :
    Bool × RulePathMap :=
  match lookupA m probe with
  | none => (false, m)
  | some inner =>
    match lookupA inner lang with
    | none => (false, m)
    | some s =>
      if p ∈ s then (true, setA m probe (setA inner lang (s.erase p)))
      else (false, m)

def removeCore (engines : List RuleEngine) (lang : String) :
    List String → RulePathMap → List String → (List String × RulePathMap)
  | [], m, acc => (acc, m)
  | p :: rest, m, acc =>
    let r := removeOne m (engineProbe engines p) lang p
    removeCore engines lang rest r.2 (if r.1 then acc ++ [p] else acc)

/-- `removePathsForLanguage` (lines 124-148): expand, probe with the raw
engine value, delete what is present, return the deleted paths and the
updated registry. -/
def removePathsForLanguage (engines : List RuleEngine) (fs : String → FSEntry)
    (resolve : String → String → String) (lang : String) (ps : List String)
    (m : RulePathMap) : Except JsError (List String × RulePathMap) := do
  let expanded ← expandPaths fs resolve ps
  let r := removeCore engines lang expanded m []
  return r

/-- `getRulePathEntries` (lines 149-158): the engine's inner map, or an
empty map when the engine (a string key here) has no entries. -/
def getRulePathEntries (m : RulePathMap) (engine : String) : RulePathEntry :=
  match lookupA m (JsValue.str engine) with
  | none => []
  | some inner => inner

/-! ## Registry load (`initialize`, lines 40-76)

`FileHandler.readFile` either yields the file content, fails with `ENOENT`,
or fails with some other error.  `JSON.parse` is an external JS builtin and
is abstracted as a `parse` parameter producing the registry-shaped document
`engine → language → array of paths`; the only fact used about it is
`parse "\x7b\x7d" = .ok []` (the empty JSON document). -/

inductive ReadResult : Type where
  | enoent : ReadResult
  | failure (msg : String) : ReadResult
  | content (data : String) : ReadResult

abbrev JsonDoc := List (String × List (String × List String))

/-- Lines 49-65: `ENOENT` is spoofed as the empty JSON file, any other read
error is rethrown as `errors.readCustomRulePathFileFailed`. -/
def dataAfterRead : ReadResult → Except JsError String
  | .enoent => .ok "{}"
  | .failure msg => .error (.readFailed msg)
  | .content s => .ok s

/-- Lines 66-70: a file that existed but held only whitespace is replaced by
the empty JSON document before parsing. -/
def dataForParse (r : ReadResult) : Except JsError String :=
  (dataAfterRead r).map (fun d => if isBlank d then "{}" else d)

/-- `convertJsonDataToMap` (lines 175-187): engine keys become string map
keys and each language's path array becomes a `Set` (first-occurrence
dedup). -/
def convertJsonDataToMap (j : JsonDoc) : RulePathMap :=
  j.map (fun ev =>
    (JsValue.str ev.1, ev.2.map (fun lv => (lv.1, lv.2.foldl setAdd []))))

/-- The tail of `initialize` (lines 72-75): `JSON.parse` the data (its error
propagates) and convert the document to the in-memory map. -/
def loadRegistry (parse : String → Except String JsonDoc) (r : ReadResult) :
    Except JsError RulePathMap := do
  let data ← dataForParse r
  match parse data with
  | .ok j => return convertJsonDataToMap j
  | .error e => .error (.parseFailed e)

/-! ## Eslint commons (`EslintCommons.ts`)

`ESRuleConfig` values are JS strings or arrays (the code calls `.indexOf` on
them); array elements are strings or other JS objects.  `!recommendation` is
JS falsiness: among these values only the empty string is falsy (arrays,
even empty ones, are truthy).  `recommendation.indexOf('off') === 0` means
"starts with `off`" for a string and "element 0 is exactly `'off'`" for an
array. -/

inductive ESConfigElem : Type where
  | s (v : String) : ESConfigElem
  | obj : ESConfigElem
deriving DecidableEq

inductive ESRuleConfig : Type where
  | str (v : String) : ESRuleConfig
  | arr (l : List ESConfigElem) : ESRuleConfig
deriving DecidableEq

def jsFalsy : ESRuleConfig → Bool
  | .str v => decide (v = "")
  | .arr _ => false

def indexOfOffZero : ESRuleConfig → Bool
  | .str v => jsStartsWith v "off"
  | .arr [] => false
  | .arr (.s v :: _) => decide (v = "off")
  | .arr (.obj :: _) => false

inductive RuleDefaultStatus : Type where
  | ENABLED : RuleDefaultStatus
  | DISABLED : RuleDefaultStatus
deriving DecidableEq

/-- `EslintStrategyHelper.getDefaultStatus` (lines 57-71): `null` for a
falsy (absent or empty) recommendation, `DISABLED` when
`recommendation.indexOf('off') === 0`, `ENABLED` otherwise.  The
`recommendedConfig.rules` object is the association list argument. -/
def getDefaultStatus (rules : List (String × ESRuleConfig)) (ruleName : String) :
    Option RuleDefaultStatus :=
  match lookupA rules ruleName with
  | none => none
  | some recommendation =>
    if jsFalsy recommendation then none
    else if indexOfOffZero recommendation then some .DISABLED else some .ENABLED

/-- `EslintStrategyHelper.getDefaultConfig` (lines 73-82): `null` for a
falsy or `off`-leading recommendation, the recommendation itself
otherwise. -/
def getDefaultConfig (rules : List (String × ESRuleConfig)) (ruleName : String) :
    Option ESRuleConfig :=
  match lookupA rules ruleName with
  | none => none
  | some recommendation =>
    if jsFalsy recommendation || indexOfOffZero recommendation then none
    else some recommendation

/-! ## `BaseEslintEngine` -/

/-- `BaseEslintEngine.matchPath` (lines 97-101): always `false`. -/
def baseEslintMatchPath (path : String) : Bool :=
  let _ := path
  false

/-- The eslint-family members of the `ENGINE` enum (`Constants.ts`), i.e.
the values `strategy.getEngine().valueOf()` can take for eslint engines. -/
def eslintFamilyNames : List String :=
  ["eslint", "eslint-lwc", "eslint-typescript", "eslint-custom"]

/-- `DEFAULT_ENV_VARS` (`BaseEslintEngine.ts` lines 16-25). -/
def DEFAULT_ENV_VARS : List (String × Bool) :=
  [("es6", true), ("node", true), ("browser", true), ("webextensions", true),
   ("jasmine", true), ("jest", true), ("jquery", true), ("mocha", true)]

/-- JS object spread `\x7b...a, ...b\x7d`: start from `a`'s entries and
assign each of `b`'s entries in order (update in place on conflict, append
otherwise). -/
def spreadObj {β : Type} (a b : List (String × β)) : List (String × β) :=
  b.foldl (fun acc kv => setA acc kv.1 kv.2) a

/-- Line 234: `config[BASECONFIG][ENV] = \x7b...DEFAULT_ENV_VARS,
...config[BASECONFIG][ENV], ...envOverride\x7d`. -/
def mergedEnv (baseConfigEnv envOverride : List (String × Bool)) :
    List (String × Bool) :=
  spreadObj (spreadObj DEFAULT_ENV_VARS baseConfigEnv) envOverride

/-- The fields of a catalog `Rule` that `configureRules` reads. -/
structure Rule : Type where
  name : String
  defaultConfig : Option ESRuleConfig
deriving DecidableEq

/-- The JS expression `rule.defaultConfig || 'error'` (line 275): the
default config when it is truthy, the string `'error'` when it is `null`,
`undefined` or falsy. -/
def configuredValue (dc : Option ESRuleConfig) : ESRuleConfig :=
  match dc with
  | some c => if jsFalsy c then .str "error" else c
  | none => .str "error"

/-- `BaseEslintEngine.configureRules` (lines 271-278):
`configuredRules[rule.name] = rule.defaultConfig || 'error'` for each rule,
on an initially empty object. -/
def configureRules (rules : List Rule) : List (String × ESRuleConfig) :=
  rules.foldl
    (fun acc rule => setA acc rule.name (configuredValue rule.defaultConfig))
    []

structure RuleTarget : Type where
  target : String
  isDirectory : Bool
  paths : List String

/-- The control skeleton of `BaseEslintEngine.run` (lines 188-252) relevant
to rule configuration: build `configuredRules`; when it has no keys, return
`[]` without touching any target; otherwise, per target, filter the paths
through the strategy's `filterUnsupportedPaths`, skip targets left empty,
and invoke the underlying engine (`cli.executeOnFiles`, abstracted as
`executeOnFiles`, whose per-invocation results are collected).  The second
component records the path lists the engine was invoked on. -/
def runEngine {α : Type} (rules : List Rule) (targets : List RuleTarget)
    (filterUnsupportedPaths : List String → List String)
    (executeOnFiles : List String → List α) : List α × List (List String) :=
  let configuredRules := configureRules rules
  if configuredRules.isEmpty then ([], [])
  else
    targets.foldl
      (fun acc t =>
        let paths := filterUnsupportedPaths t.paths
        if paths.isEmpty then acc
        else (acc.1 ++ executeOnFiles paths, acc.2 ++ [paths]))
      ([], [])

/-! ## Lemmas about `expandPaths` -/

theorem expandPaths_ok_no_absent {fs : String → FSEntry}
    {resolve : String → String → String} {ps : List String} {l : List String}
    (h : expandPaths fs resolve ps = .ok l) : ∀ p ∈ ps, fs p ≠ .absent := by
  induction ps generalizing l with
  | nil => intro p hp; cases hp
  | cons q rest ih =>
      intro p hp
      rcases List.mem_cons.mp hp with rfl | hmem
      · intro habs
        rw [expandPaths, habs] at h
        cases h
      · rw [expandPaths] at h
        cases hq : fs q with
        | absent => rw [hq] at h; cases h
        | file =>
            rw [hq] at h
            cases he : expandPaths fs resolve rest with
            | error e => rw [he] at h; cases h
            | ok l' => exact ih he p hmem
        | dir files =>
            rw [hq] at h
            cases he : expandPaths fs resolve rest with
            | error e => rw [he] at h; cases h
            | ok l' => exact ih he p hmem
        | other =>
            rw [hq] at h
            exact ih h p hmem

theorem expandPaths_total {fs : String → FSEntry}
    {resolve : String → String → String} {ps : List String}
    (h : ∀ p ∈ ps, fs p ≠ .absent) :
    ∃ l, expandPaths fs resolve ps = .ok l := by
  induction ps with
  | nil => exact ⟨[], rfl⟩
  | cons q rest ih =>
      obtain ⟨l, hl⟩ := ih (fun p hp => h p (List.mem_cons_of_mem q hp))
      have hq := h q (List.mem_cons_self q rest)
      rw [expandPaths]
      cases hfs : fs q with
      | absent => exact absurd hfs hq
      | file => exact ⟨_, by rw [hl]; rfl⟩
      | dir files => exact ⟨_, by rw [hl]; rfl⟩
      | other => exact ⟨l, hl⟩

theorem expandPaths_error_shape {fs : String → FSEntry}
    {resolve : String → String → String} {ps : List String} {e : JsError}
    (h : expandPaths fs resolve ps = .error e) :
    ∃ q, e = .invalidFilePath q ∧ q ∈ ps ∧ fs q = .absent := by
  induction ps with
  | nil => cases h
  | cons q rest ih =>
      rw [expandPaths] at h
      cases hq : fs q with
      | absent =>
          rw [hq] at h
          cases h
          exact ⟨q, rfl, List.mem_cons_self q rest, hq⟩
      | file =>
          rw [hq] at h
          cases he : expandPaths fs resolve rest with
          | error e' =>
              rw [he] at h
              cases h
              obtain ⟨q', hq1, hq2, hq3⟩ := ih he
              exact ⟨q', hq1, List.mem_cons_of_mem q hq2, hq3⟩
          | ok l' => rw [he] at h; cases h
      | dir files =>
          rw [hq] at h
          cases he : expandPaths fs resolve rest with
          | error e' =>
              rw [he] at h
              cases h
              obtain ⟨q', hq1, hq2, hq3⟩ := ih he
              exact ⟨q', hq1, List.mem_cons_of_mem q hq2, hq3⟩
          | ok l' => rw [he] at h; cases h
      | other =>
          rw [hq] at h
          obtain ⟨q', hq1, hq2, hq3⟩ := ih h
          exact ⟨q', hq1, List.mem_cons_of_mem q hq2, hq3⟩

/-! ## Lemmas about the registry insertion -/

/-- Whether the path `p` is stored in `m` under the engine-name string key
`en` and the language `lang` (the shape `addPathsForLanguage` writes). -/
def containsB (m : RulePathMap) (en lang p : String) : Bool :=
  match lookupA m (JsValue.str en) with
  | none => false
  | some inner =>
    match lookupA inner lang with
    | none => false
    | some s => decide (p ∈ s)

theorem containsB_iff {m : RulePathMap} {en lang p : String} :
    containsB m en lang p = true ↔
      ∃ inner s, lookupA m (JsValue.str en) = some inner ∧
        lookupA inner lang = some s ∧ p ∈ s := by
  unfold containsB
  cases h0 : lookupA m (JsValue.str en) with
  | none => simp
  | some inner =>
      cases h1 : lookupA inner lang with
      | none => simp [h1]
      | some s => simp [h1]


theorem addEntry_eq_newEngine {m : RulePathMap} {en : String} (lang p : String)
    (h0 : lookupA m (JsValue.str en) = none) :
    addEntry m en lang p =
      setA (setA m (JsValue.str en) []) (JsValue.str en) [(lang, [p])] := by
  simp [addEntry, h0, lookupA_setA, setA]

theorem addEntry_eq_newLang {m : RulePathMap} {en lang : String}
    {inner : RulePathEntry} (p : String)
    (h0 : lookupA m (JsValue.str en) = some inner)
    (h1 : lookupA inner lang = none) :
    addEntry m en lang p = setA m (JsValue.str en) (setA inner lang [p]) := by
  simp [addEntry, h0, h1]

theorem addEntry_eq_addPath {m : RulePathMap} {en lang : String}
    {inner : RulePathEntry} {s : List String} (p : String)
    (h0 : lookupA m (JsValue.str en) = some inner)
    (h1 : lookupA inner lang = some s) :
    addEntry m en lang p =
      setA m (JsValue.str en) (setA inner lang (setAdd s p)) := by
  simp [addEntry, h0, h1]

theorem addEntry_contains (m : RulePathMap) (en lang p : String) :
    containsB (addEntry m en lang p) en lang p = true := by
  rw [containsB_iff]
  cases h0 : lookupA m (JsValue.str en) with
  | none =>
      rw [addEntry_eq_newEngine lang p h0]
      refine ⟨[(lang, [p])], [p], ?_, ?_, List.mem_singleton.mpr rfl⟩
      · rw [lookupA_setA, if_pos rfl]
      · simp [lookupA]
  | some inner =>
      cases h1 : lookupA inner lang with
      | none =>
          rw [addEntry_eq_newLang p h0 h1]
          refine ⟨setA inner lang [p], [p], ?_, ?_, List.mem_singleton.mpr rfl⟩
          · rw [lookupA_setA, if_pos rfl]
          · rw [lookupA_setA, if_pos rfl]
      | some s =>
          rw [addEntry_eq_addPath p h0 h1]
          refine ⟨setA inner lang (setAdd s p), setAdd s p, ?_, ?_, mem_setAdd s p⟩
          · rw [lookupA_setA, if_pos rfl]
          · rw [lookupA_setA, if_pos rfl]

theorem addEntry_preserves {m : RulePathMap} {en lang p : String}
    (en' lang' p' : String) (h : containsB m en lang p = true) :
    containsB (addEntry m en' lang' p') en lang p = true := by
  rw [containsB_iff] at h
  obtain ⟨inner, s, h1, h2, h3⟩ := h
  rw [containsB_iff]
  by_cases hk : JsValue.str en = JsValue.str en'
  · -- same engine key
    have hen : en = en' := by cases hk; rfl
    subst hen
    cases h4 : lookupA inner lang' with
    | none =>
        have hll : ¬lang = lang' := fun hll => by rw [hll, h4] at h2; cases h2
        rw [addEntry_eq_newLang p' h1 h4]
        refine ⟨setA inner lang' [p'], s, ?_, ?_, h3⟩
        · rw [lookupA_setA, if_pos rfl]
        · rw [lookupA_setA, if_neg hll, h2]
    | some s' =>
        by_cases hll : lang = lang'
        · subst hll
          rw [h2] at h4
          cases h4
          rw [addEntry_eq_addPath p' h1 h2]
          refine ⟨setA inner lang (setAdd s p'), setAdd s p', ?_, ?_,
            mem_setAdd_of_mem p' h3⟩
          · rw [lookupA_setA, if_pos rfl]
          · rw [lookupA_setA, if_pos rfl]
        · rw [addEntry_eq_addPath p' h1 h4]
          refine ⟨setA inner lang' (setAdd s' p'), s, ?_, ?_, h3⟩
          · rw [lookupA_setA, if_pos rfl]
          · rw [lookupA_setA, if_neg hll, h2]
  · -- different engine key: the lookup at `en` is untouched
    cases h0 : lookupA m (JsValue.str en') with
    | none =>
        rw [addEntry_eq_newEngine lang' p' h0]
        refine ⟨inner, s, ?_, h2, h3⟩
        rw [lookupA_setA, if_neg hk, lookupA_setA, if_neg hk, h1]
    | some inner0 =>
        cases h6 : lookupA inner0 lang' with
        | none =>
            rw [addEntry_eq_newLang p' h0 h6]
            refine ⟨inner, s, ?_, h2, h3⟩
            rw [lookupA_setA, if_neg hk, h1]
        | some s' =>
            rw [addEntry_eq_addPath p' h0 h6]
            refine ⟨inner, s, ?_, h2, h3⟩
            rw [lookupA_setA, if_neg hk, h1]

theorem addEntry_of_contains {m : RulePathMap} {en lang p : String}
    (h : containsB m en lang p = true) : addEntry m en lang p = m := by
  rw [containsB_iff] at h
  obtain ⟨inner, s, h1, h2, h3⟩ := h
  rw [addEntry_eq_addPath p h1 h2, setAdd_of_mem h3, setA_self inner lang s h2,
    setA_self m _ inner h1]

/-! ## Lemmas about `addPathsCore` -/

theorem addPathsCore_preserves {engines : List RuleEngine} {lang : String}
    {es : List String} {m m' : RulePathMap} {en lg p : String}
    (hc : addPathsCore engines lang es m = .ok m')
    (h : containsB m en lg p = true) : containsB m' en lg p = true := by
  induction es generalizing m with
  | nil => cases hc; exact h
  | cons e rest ih =>
      rw [addPathsCore] at hc
      cases hf : determineEngineForPath engines e with
      | none => rw [hf] at hc; cases hc
      | some eng =>
          rw [hf] at hc
          exact ih hc (addEntry_preserves eng.name lang e h)

theorem addPathsCore_contains {engines : List RuleEngine} {lang : String}
    {es : List String} {m m' : RulePathMap}
    (hc : addPathsCore engines lang es m = .ok m') :
    ∀ e ∈ es, ∀ eng, determineEngineForPath engines e = some eng →
      containsB m' eng.name lang e = true := by
  induction es generalizing m with
  | nil => intro e he; cases he
  | cons e0 rest ih =>
      intro e he eng hf
      rw [addPathsCore] at hc
      cases hf0 : determineEngineForPath engines e0 with
      | none => rw [hf0] at hc; cases hc
      | some eng0 =>
          rw [hf0] at hc
          rcases List.mem_cons.mp he with rfl | hmem
          · rw [hf0] at hf
            cases hf
            exact addPathsCore_preserves hc (addEntry_contains m eng.name lang e)
          · exact ih hc e hmem eng hf

theorem addPathsCore_attributable {engines : List RuleEngine} {lang : String}
    {es : List String} {m m' : RulePathMap}
    (hc : addPathsCore engines lang es m = .ok m') :
    ∀ e ∈ es, ∃ eng, determineEngineForPath engines e = some eng := by
  induction es generalizing m with
  | nil => intro e he; cases he
  | cons e0 rest ih =>
      intro e he
      rw [addPathsCore] at hc
      cases hf0 : determineEngineForPath engines e0 with
      | none => rw [hf0] at hc; cases hc
      | some eng0 =>
          rw [hf0] at hc
          rcases List.mem_cons.mp he with rfl | hmem
          · exact ⟨eng0, hf0⟩
          · exact ih hc e hmem

theorem addPathsCore_of_contained {engines : List RuleEngine} {lang : String}
    {es : List String} {m : RulePathMap}
    (h : ∀ e ∈ es, ∃ eng, determineEngineForPath engines e = some eng ∧
      containsB m eng.name lang e = true) :
    addPathsCore engines lang es m = .ok m := by
  induction es with
  | nil => rfl
  | cons e0 rest ih =>
      obtain ⟨eng, hf, hcont⟩ := h e0 (List.mem_cons_self e0 rest)
      rw [addPathsCore, hf]
      show addPathsCore engines lang rest (addEntry m eng.name lang e0) = .ok m
      rw [addEntry_of_contains hcont]
      exact ih (fun e he => h e (List.mem_cons_of_mem e0 he))

theorem addPathsCore_total {engines : List RuleEngine} {lang : String}
    {es : List String} (m : RulePathMap)
    (h : ∀ e ∈ es, ∃ eng, determineEngineForPath engines e = some eng) :
    ∃ m', addPathsCore engines lang es m = .ok m' := by
  induction es generalizing m with
  | nil => exact ⟨m, rfl⟩
  | cons e0 rest ih =>
      obtain ⟨eng, hf⟩ := h e0 (List.mem_cons_self e0 rest)
      obtain ⟨m', hm'⟩ := ih (addEntry m eng.name lang e0)
        (fun e he => h e (List.mem_cons_of_mem e0 he))
      exact ⟨m', by rw [addPathsCore, hf]; exact hm'⟩

/-! ## Key predicates preserved by registry insertion (for the eslint claim) -/

/-- `true` on every outer-map key that is not an eslint-family engine-name
string. -/
def keyNotEslint : JsValue → Bool
  | .str n => !(decide (n ∈ eslintFamilyNames))
  | .engineRef _ => true
  | .undefined => true

/-- The registry holds no entry keyed by an eslint-family engine name. -/
def noEslintKeys (m : RulePathMap) : Bool :=
  m.all (fun kv => keyNotEslint kv.1)

theorem all_keys_setA {α β : Type} [DecidableEq α] (P : α → Bool)
    (m : List (α × β)) (k : α) (v : β)
    (hm : m.all (fun kv => P kv.1) = true) (hk : P k = true) :
    (setA m k v).all (fun kv => P kv.1) = true := by
  induction m with
  | nil => simp [setA, hk]
  | cons hd t ih =>
      obtain ⟨k0, v0⟩ := hd
      simp only [List.all_cons, Bool.and_eq_true] at hm
      by_cases h0 : k0 = k
      · simp [setA, h0, hk, hm.2]
      · simp [setA, h0, hm.1, ih hm.2]

theorem noEslintKeys_addEntry {m : RulePathMap} {en : String} (lang p : String)
    (hm : noEslintKeys m = true) (hen : keyNotEslint (JsValue.str en) = true) :
    noEslintKeys (addEntry m en lang p) = true := by
  unfold noEslintKeys at *
  cases h0 : lookupA m (JsValue.str en) with
  | none =>
      rw [addEntry_eq_newEngine lang p h0]
      exact all_keys_setA _ _ _ _ (all_keys_setA _ _ _ _ hm hen) hen
  | some inner =>
      cases h1 : lookupA inner lang with
      | none =>
          rw [addEntry_eq_newLang p h0 h1]
          exact all_keys_setA _ _ _ _ hm hen
      | some s =>
          rw [addEntry_eq_addPath p h0 h1]
          exact all_keys_setA _ _ _ _ hm hen

theorem noEslintKeys_addPathsCore {engines : List RuleEngine} {lang : String}
    {es : List String} {m m' : RulePathMap}
    (hc : addPathsCore engines lang es m = .ok m')
    (hm : noEslintKeys m = true)
    (hengines : ∀ e ∈ es, ∀ eng, determineEngineForPath engines e = some eng →
      keyNotEslint (JsValue.str eng.name) = true) :
    noEslintKeys m' = true := by
  induction es generalizing m with
  | nil => cases hc; exact hm
  | cons e0 rest ih =>
      rw [addPathsCore] at hc
      cases hf0 : determineEngineForPath engines e0 with
      | none => rw [hf0] at hc; cases hc
      | some eng0 =>
          rw [hf0] at hc
          exact ih hc
            (noEslintKeys_addEntry lang e0 hm
              (hengines e0 (List.mem_cons_self e0 rest) eng0 hf0))
            (fun e he eng hf => hengines e (List.mem_cons_of_mem e0 he) eng hf)

/-! ## Lemmas about object spread and `configureRules` -/

theorem lookupA_of_not_mem_keys {α β : Type} [DecidableEq α]
    {l : List (α × β)} {k : α} (h : k ∉ l.map Prod.fst) : lookupA l k = none := by
  induction l with
  | nil => rfl
  | cons hd t ih =>
      obtain ⟨k0, v0⟩ := hd
      simp only [List.map_cons, List.mem_cons] at h
      push_neg at h
      rw [lookupA, if_neg h.1]
      exact ih h.2

theorem lookupA_spreadObj {β : Type} (a b : List (String × β)) (k : String)
    (hb : (b.map Prod.fst).Nodup) :
    lookupA (spreadObj a b) k =
      match lookupA b k with
      | some v => some v
      | none => lookupA a k := by
  induction b generalizing a with
  | nil => simp [spreadObj]
  | cons hd t ih =>
      obtain ⟨k0, v0⟩ := hd
      simp only [List.map_cons, List.nodup_cons] at hb
      have hstep : spreadObj a ((k0, v0) :: t) = spreadObj (setA a k0 v0) t := rfl
      rw [hstep, ih (setA a k0 v0) hb.2]
      by_cases hk : k = k0
      · subst hk
        rw [lookupA_of_not_mem_keys hb.1]
        rw [lookupA, if_pos rfl, lookupA_setA, if_pos rfl]
      · rw [lookupA, if_neg hk]
        cases ht : lookupA t k with
        | some v => rfl
        | none => simp only [lookupA_setA, if_neg hk]

theorem setA_ne_nil {α β : Type} [DecidableEq α] (m : List (α × β)) (k : α) (v : β) :
    setA m k v ≠ [] := by
  cases m with
  | nil => simp [setA]
  | cons hd t =>
      obtain ⟨k0, v0⟩ := hd
      by_cases h : k0 = k <;> simp [setA, h]

theorem configureRules_fold_ne_nil (rules : List Rule)
    (acc : List (String × ESRuleConfig)) (hacc : acc ≠ []) :
    rules.foldl
      (fun acc rule => setA acc rule.name (configuredValue rule.defaultConfig))
      acc ≠ [] := by
  induction rules generalizing acc with
  | nil => exact hacc
  | cons r rest ih => exact ih _ (setA_ne_nil _ _ _)

theorem find?_append_match {α : Type} (l1 l2 : List α) (p : α → Bool) :
    (l1 ++ l2).find? p =
      match l1.find? p with
      | some a => some a
      | none => l2.find? p := by
  induction l1 with
  | nil => simp
  | cons hd t ih =>
      by_cases h : p hd = true
      · rw [List.cons_append, List.find?_cons_of_pos _ h, List.find?_cons_of_pos _ h]
      · rw [List.cons_append, List.find?_cons_of_neg _ h, List.find?_cons_of_neg _ h,
          ih]

theorem lookupA_configure_fold (rules : List Rule)
    (acc : List (String × ESRuleConfig)) (n : String) :
    lookupA
      (rules.foldl
        (fun acc rule => setA acc rule.name (configuredValue rule.defaultConfig))
        acc) n =
      match rules.reverse.find? (fun r => decide (r.name = n)) with
      | some r => some (configuredValue r.defaultConfig)
      | none => lookupA acc n := by
  induction rules generalizing acc with
  | nil => simp
  | cons r rest ih =>
      simp only [List.foldl_cons, List.reverse_cons]
      rw [ih, find?_append_match]
      cases hr : rest.reverse.find? (fun r => decide (r.name = n)) with
      | some r' => rfl
      | none =>
          show lookupA (setA acc r.name (configuredValue r.defaultConfig)) n =
            match List.find? (fun r => decide (r.name = n)) [r] with
            | some r => some (configuredValue r.defaultConfig)
            | none => lookupA acc n
          rw [lookupA_setA]
          by_cases hn : r.name = n
          · have hfind : List.find? (fun r => decide (r.name = n)) [r] = some r := by
              simp [List.find?, hn]
            rw [hfind, if_pos hn.symm]
          · have hfind : List.find? (fun r => decide (r.name = n)) [r] = none := by
              simp [List.find?, hn]
            rw [hfind, if_neg (fun h => hn h.symm)]

/-! ## Concrete fixtures used by the claim theorems -/

/-- An engine that owns `.jar` paths (as the PMD engine does). -/
def jarMatchEngine : RuleEngine := ⟨0, "pmd", fun p => jsEndsWith p ".jar"⟩

/-- An eslint-family engine: `matchPath` is `BaseEslintEngine.matchPath`. -/
def eslintEngine : RuleEngine := ⟨1, "eslint", baseEslintMatchPath⟩

/-- A concrete stand-in for `path.resolve(p, file)`. -/
def resolveJoin : String → String → String := fun p f => p ++ "/" ++ f

/-- A small filesystem: one rule archive, one text file, one directory with
two archives and one text file; everything else does not exist. -/
def fsDemo : String → FSEntry := fun p =>
  if p = "/rules/MyRules.jar" then .file
  else if p = "/rules/notes.txt" then .file
  else if p = "/dir" then .dir ["a.jar", "b.txt", "c.jar"]
  else .absent

/-- The registry state `addPathsForLanguage` produces from the empty
registry for language `apex` and pattern `/rules/MyRules.jar`. -/
def mAfterAdd : RulePathMap :=
  [(JsValue.str "pmd", [("apex", ["/rules/MyRules.jar"])])]

/-- `JSON.parse` restricted to the inputs the witnesses feed it. -/
def parseStub : String → Except String JsonDoc :=
  fun s => if s = "{}" then .ok [] else .error "Unexpected token in JSON"

/-- C1: the round-trip `addPathsForLanguage` then `getMatchingPaths` does
NOT return the attributed-and-stored subset of the patterns.  The add stores
the path under the engine-name string key `"pmd"`, but `getMatchingPaths`
probes the map with the raw `RuleEngine` object returned by
`determineEngineForPath`, so the lookup misses and the result is `[]`
instead of the stored `["/rules/MyRules.jar"]`. -/
theorem claim_C1_divergence :
    addPathsForLanguage [jarMatchEngine] fsDemo resolveJoin "apex"
      ["/rules/MyRules.jar"] [] = .ok (["/rules/MyRules.jar"], mAfterAdd) ∧
    containsB mAfterAdd "pmd" "apex" "/rules/MyRules.jar" = true ∧
    getMatchingPaths [jarMatchEngine] fsDemo resolveJoin "apex"
      ["/rules/MyRules.jar"] mAfterAdd = .ok [] ∧
    (([] : List String) ≠ ["/rules/MyRules.jar"]) := by
  decide

/-- C2: `removePathsForLanguage` does NOT return (or delete) the previously
added path: it probes the outer map with the raw `RuleEngine` object, so the
lookup misses the `"pmd"` string key, nothing is deleted, and the returned
list is `[]` instead of `["/rules/MyRules.jar"]`. -/
theorem claim_C2_divergence :
    addPathsForLanguage [jarMatchEngine] fsDemo resolveJoin "apex"
      ["/rules/MyRules.jar"] [] = .ok (["/rules/MyRules.jar"], mAfterAdd) ∧
    removePathsForLanguage [jarMatchEngine] fsDemo resolveJoin "apex"
      ["/rules/MyRules.jar"] mAfterAdd = .ok ([], mAfterAdd) ∧
    (([] : List String) ≠ ["/rules/MyRules.jar"]) := by
  refine ⟨by decide, by decide, by decide⟩

/-- C3: when no registered engine's `matchPath` accepts an expanded path,
`addPathsForLanguage` does NOT drop the path silently: it calls
`engine.getName()` on the `undefined` result of `determineEngineForPath`
and raises a `TypeError` instead of completing normally. -/
theorem claim_C3_divergence :
    (determineEngineForPath [eslintEngine] "/rules/MyRules.jar").isNone = true ∧
    addPathsForLanguage [eslintEngine] fsDemo resolveJoin "apex"
      ["/rules/MyRules.jar"] []
      = .error (.typeError "Cannot read properties of undefined") := by
  refine ⟨by decide, by decide⟩

theorem removeCore_empty (engines : List RuleEngine) (lang : String) :
    ∀ (l acc : List String), removeCore engines lang l [] acc = (acc, []) := by
  intro l
  induction l with
  | nil => intro acc; rfl
  | cons p rest ih => intro acc; exact ih acc

/-- C4: a missing registry file (`ENOENT`) and a whitespace-only registry
file both load as the empty registry, on which every operation behaves as on
the empty document; any other read failure is rethrown as
`errors.readCustomRulePathFileFailed`, and a `JSON.parse` failure
propagates. -/
theorem claim_C4_load_tolerance (parse : String → Except String JsonDoc)
    (hp : parse "{}" = .ok []) :
    loadRegistry parse .enoent = .ok [] ∧
    (∀ s, isBlank s = true → loadRegistry parse (.content s) = .ok []) ∧
    (∀ msg, loadRegistry parse (.failure msg) = .error (.readFailed msg)) ∧
    (∀ s e, isBlank s = false → parse s = .error e →
      loadRegistry parse (.content s) = .error (.parseFailed e)) ∧
    (∀ eng, getRulePathEntries [] eng = []) ∧
    (∀ engines fs resolve lang ps l, expandPaths fs resolve ps = .ok l →
      getMatchingPaths engines fs resolve lang ps [] = .ok []) ∧
    (∀ engines fs resolve lang ps l, expandPaths fs resolve ps = .ok l →
      removePathsForLanguage engines fs resolve lang ps [] = .ok ([], [])) ∧
    (∀ engines fs resolve lang ps l, expandPaths fs resolve ps = .ok l →
      (∀ p ∈ l, (determineEngineForPath engines p).isSome = true) →
      ∃ m', addPathsForLanguage engines fs resolve lang ps [] = .ok (l, m')) := by
  have hblank : isBlank "{}" = false := by decide
  refine ⟨?_, ?_, ?_, ?_, ?_, ?_, ?_, ?_⟩
  · simp [loadRegistry, dataForParse, dataAfterRead, hblank, hp, Bind.bind,
      Except.bind, Except.map, convertJsonDataToMap, pure, Except.pure]
  · intro s hs
    simp [loadRegistry, dataForParse, dataAfterRead, hs, hp, Bind.bind,
      Except.bind, Except.map, convertJsonDataToMap, pure, Except.pure]
  · intro msg
    rfl
  · intro s e hb hpe
    simp [loadRegistry, dataForParse, dataAfterRead, hb, hpe, Bind.bind,
      Except.bind, Except.map]
  · intro eng
    rfl
  · intro engines fs resolve lang ps l hexp
    simp [getMatchingPaths, hexp]
  · intro engines fs resolve lang ps l hexp
    simp [removePathsForLanguage, hexp, removeCore_empty]
  · intro engines fs resolve lang ps l hexp hall
    obtain ⟨m', hm'⟩ := @addPathsCore_total engines lang l []
      (fun p hp2 => Option.isSome_iff_exists.mp (hall p hp2))
    exact ⟨m', by
      simp [addPathsForLanguage, hexp, hm', Bind.bind, Except.bind,
        Functor.map, Except.map, pure, Except.pure]⟩

/-- Witness for C4 at concrete inputs. -/
theorem claim_C4_witness :
    loadRegistry parseStub .enoent = .ok [] ∧
    loadRegistry parseStub (.content "  ") = .ok [] ∧
    loadRegistry parseStub (.failure "EACCES: permission denied") =
      .error (.readFailed "EACCES: permission denied") ∧
    loadRegistry parseStub (.content "not json") =
      .error (.parseFailed "Unexpected token in JSON") ∧
    getRulePathEntries [] "pmd" = [] ∧
    getMatchingPaths [jarMatchEngine] fsDemo resolveJoin "apex" ["/dir"] []
      = .ok [] := by
  have h := claim_C4_load_tolerance parseStub (by decide)
  exact ⟨h.1, h.2.1 "  " (by decide), h.2.2.1 "EACCES: permission denied",
    h.2.2.2.1 "not json" "Unexpected token in JSON" (by decide) (by decide),
    h.2.2.2.2.1 "pmd",
    h.2.2.2.2.2.1 [jarMatchEngine] fsDemo resolveJoin "apex" ["/dir"]
      ["/dir/a.jar", "/dir/c.jar"] (by decide)⟩

/-- C5: `expandPaths` fails, with `errors.invalidFilePath` naming an
offending pattern, exactly when some pattern resolves to a non-existent
filesystem entry; an existing file without the `.jar` extension is silently
dropped; a directory contributes exactly its non-recursively listed `.jar`
entries, each resolved against the directory. -/
theorem claim_C5_expand (fs : String → FSEntry) (resolve : String → String → String) :
    (∀ ps : List String, (∃ p ∈ ps, fs p = .absent) ↔
      ∃ q, expandPaths fs resolve ps = .error (.invalidFilePath q) ∧
        q ∈ ps ∧ fs q = .absent) ∧
    (∀ ps p, fs p = .file → jsEndsWith p ".jar" = false →
      expandPaths fs resolve (p :: ps) = expandPaths fs resolve ps) ∧
    (∀ ps p files, fs p = .dir files →
      expandPaths fs resolve (p :: ps) =
        (expandPaths fs resolve ps).map
          (fun r =>
            (files.filter (fun f => jsEndsWith f ".jar")).map (resolve p) ++ r)) := by
  refine ⟨?_, ?_, ?_⟩
  · intro ps
    constructor
    · rintro ⟨p, hp, habs⟩
      cases he : expandPaths fs resolve ps with
      | ok l => exact absurd habs (expandPaths_ok_no_absent he p hp)
      | error e =>
          obtain ⟨q, hq1, hq2, hq3⟩ := expandPaths_error_shape he
          subst hq1
          exact ⟨q, rfl, hq2, hq3⟩
    · rintro ⟨q, _, hq2, hq3⟩
      exact ⟨q, hq2, hq3⟩
  · intro ps p hf hjar
    simp only [expandPaths, hf, hjar, Bool.false_eq_true, if_false,
      List.nil_append]
    cases he : expandPaths fs resolve ps <;> simp [Except.map]
  · intro ps p files hd
    simp only [expandPaths, hd]

/-- Witness for C5 at concrete inputs. -/
theorem claim_C5_witness :
    (∃ q, expandPaths fsDemo resolveJoin ["/missing", "/dir"]
        = .error (.invalidFilePath q) ∧ q ∈ ["/missing", "/dir"] ∧
        fsDemo q = .absent) ∧
    expandPaths fsDemo resolveJoin ["/rules/notes.txt", "/rules/MyRules.jar"]
      = expandPaths fsDemo resolveJoin ["/rules/MyRules.jar"] ∧
    expandPaths fsDemo resolveJoin ["/dir"]
      = (expandPaths fsDemo resolveJoin []).map
          (fun r =>
            ((["a.jar", "b.txt", "c.jar"].filter
              (fun f => jsEndsWith f ".jar")).map (resolveJoin "/dir") ++ r)) := by
  have h := claim_C5_expand fsDemo resolveJoin
  exact ⟨(h.1 ["/missing", "/dir"]).mp ⟨"/missing", by decide, by decide⟩,
    h.2.1 ["/rules/MyRules.jar"] "/rules/notes.txt" (by decide) (by decide),
    h.2.2 [] "/dir" ["a.jar", "b.txt", "c.jar"] (by decide)⟩

/-- C6: in the per-target environment merge
`\x7b...DEFAULT_ENV_VARS, ...config[BASECONFIG][ENV], ...envOverride\x7d`,
for every key the engine-options override wins, then the run config's
`baseConfig` env, then `DEFAULT_ENV_VARS`; a key present in only one source
keeps that source's value. -/
theorem claim_C6_env_merge (base override : List (String × Bool)) (k : String)
    (hb : (base.map Prod.fst).Nodup) (ho : (override.map Prod.fst).Nodup) :
    lookupA (mergedEnv base override) k =
      match lookupA override k with
      | some v => some v
      | none =>
        match lookupA base k with
        | some v => some v
        | none => lookupA DEFAULT_ENV_VARS k := by
  unfold mergedEnv
  rw [lookupA_spreadObj _ _ _ ho, lookupA_spreadObj _ _ _ hb]
  cases lookupA override k with
  | some v => rfl
  | none =>
      cases lookupA base k with
      | some v => rfl
      | none => rfl

/-- The `baseConfig` env of a run config, in a demo configuration. -/
def baseEnvDemo : List (String × Bool) := [("node", false), ("proj", true)]

/-- A user-supplied env override from the engine options. -/
def overrideDemo : List (String × Bool) := [("jquery", false), ("user", true)]

/-- Witness for C6 at concrete inputs: the override beats the default
(`jquery`), the base config beats the default (`node`), a default-only key
survives (`es6`), and single-source keys survive (`user`, `proj`). -/
theorem claim_C6_witness :
    lookupA (mergedEnv baseEnvDemo overrideDemo) "jquery" = some false ∧
    lookupA (mergedEnv baseEnvDemo overrideDemo) "node" = some false ∧
    lookupA (mergedEnv baseEnvDemo overrideDemo) "es6" = some true ∧
    lookupA (mergedEnv baseEnvDemo overrideDemo) "user" = some true ∧
    lookupA (mergedEnv baseEnvDemo overrideDemo) "proj" = some true := by
  have h1 := claim_C6_env_merge baseEnvDemo overrideDemo "jquery" (by decide) (by decide)
  have h2 := claim_C6_env_merge baseEnvDemo overrideDemo "node" (by decide) (by decide)
  have h3 := claim_C6_env_merge baseEnvDemo overrideDemo "es6" (by decide) (by decide)
  have h4 := claim_C6_env_merge baseEnvDemo overrideDemo "user" (by decide) (by decide)
  have h5 := claim_C6_env_merge baseEnvDemo overrideDemo "proj" (by decide) (by decide)
  exact ⟨by rw [h1]; decide, by rw [h2]; decide, by rw [h3]; decide,
    by rw [h4]; decide, by rw [h5]; decide⟩

theorem jsFalsy_eq_true_iff (c : ESRuleConfig) : jsFalsy c = true ↔ c = .str "" := by
  cases c with
  | str v => simp [jsFalsy]
  | arr l => simp [jsFalsy]

/-- A recommended configuration whose entry for `no-empty` is the empty
string: a present entry that is JS-falsy. -/
def emptyStrConfig : List (String × ESRuleConfig) := [("no-empty", .str "")]

/-- C7 counterexample: the rule `no-empty` is present in the recommended
configuration with an entry that does not begin with `off`, yet
`getDefaultStatus` returns the unknown sentinel `null` (not `ENABLED`) and
`getDefaultConfig` returns `null` (not the recommendation): the code tests
JS falsiness (`!recommendation`), not absence. -/
theorem claim_C7_counterexample :
    lookupA emptyStrConfig "no-empty" = some (.str "") ∧
    indexOfOffZero (.str "") = false ∧
    getDefaultStatus emptyStrConfig "no-empty" = none ∧
    getDefaultStatus emptyStrConfig "no-empty" ≠ some .ENABLED ∧
    getDefaultConfig emptyStrConfig "no-empty" = none := by
  refine ⟨by decide, by decide, by decide, by decide, by decide⟩

/-- C7 amended: `getDefaultStatus` returns `null` exactly when the rule is
absent from the recommended configuration or its entry is the falsy empty
string; `DISABLED` exactly when the entry begins with `off`; `ENABLED`
otherwise.  `getDefaultConfig` returns `null` exactly when the rule is
absent, its entry is the empty string, or it begins with `off`, and the
recommendation itself otherwise. -/
theorem claim_C7_amended (rules : List (String × ESRuleConfig)) (name : String) :
    (getDefaultStatus rules name = none ↔
      (lookupA rules name = none ∨ lookupA rules name = some (.str ""))) ∧
    (getDefaultStatus rules name = some .DISABLED ↔
      ∃ c, lookupA rules name = some c ∧ indexOfOffZero c = true) ∧
    (getDefaultStatus rules name = some .ENABLED ↔
      ∃ c, lookupA rules name = some c ∧ c ≠ .str "" ∧ indexOfOffZero c = false) ∧
    (getDefaultConfig rules name = none ↔
      (lookupA rules name = none ∨ lookupA rules name = some (.str "") ∨
        ∃ c, lookupA rules name = some c ∧ indexOfOffZero c = true)) ∧
    (∀ c, getDefaultConfig rules name = some c ↔
      (lookupA rules name = some c ∧ c ≠ .str "" ∧ indexOfOffZero c = false)) := by
  cases h : lookupA rules name with
  | none => simp [getDefaultStatus, getDefaultConfig, h]
  | some c =>
      by_cases hf : jsFalsy c = true
      · have hc : c = .str "" := (jsFalsy_eq_true_iff c).mp hf
        subst hc
        have hoff : indexOfOffZero (.str "") = false := by decide
        simp [getDefaultStatus, getDefaultConfig, h, hoff]
        exact ⟨hf, fun c =>
          ⟨fun hc => absurd (hf.symm.trans hc.1) (by decide),
           fun hc => absurd hc.1.symm hc.2.1⟩⟩
      · have hcne : c ≠ .str "" := fun hc => hf ((jsFalsy_eq_true_iff c).mpr hc)
        have hf' : jsFalsy c = false := by
          cases hjf : jsFalsy c with
          | true => exact absurd hjf hf
          | false => rfl
        by_cases hoff : indexOfOffZero c = true
        · simp [getDefaultStatus, getDefaultConfig, h, hf', hoff, hcne]
        · have hoff' : indexOfOffZero c = false := by
            cases hio : indexOfOffZero c with
            | true => exact absurd hio hoff
            | false => rfl
          simp [getDefaultStatus, getDefaultConfig, h, hf', hoff', hcne]

/-- A small recommended configuration for the C7 witness. -/
def recDemoConfig : List (String × ESRuleConfig) :=
  [("a", .str "off"), ("b", .str "error"), ("c", .arr [.s "off", .obj])]

/-- Witness for C7 at concrete inputs. -/
theorem claim_C7_witness :
    getDefaultStatus recDemoConfig "a" = some .DISABLED ∧
    getDefaultStatus recDemoConfig "b" = some .ENABLED ∧
    getDefaultStatus recDemoConfig "zzz" = none ∧
    getDefaultConfig recDemoConfig "b" = some (.str "error") := by
  refine ⟨((claim_C7_amended recDemoConfig "a").2.1).mpr
      ⟨.str "off", by decide, by decide⟩,
    ((claim_C7_amended recDemoConfig "b").2.2.1).mpr
      ⟨.str "error", by decide, by decide, by decide⟩,
    ((claim_C7_amended recDemoConfig "zzz").1).mpr (Or.inl (by decide)),
    ((claim_C7_amended recDemoConfig "b").2.2.2.2 (.str "error")).mpr
      ⟨by decide, by decide, by decide⟩⟩

/-- C8: a second `addPathsForLanguage` with the same arguments returns the
same expanded list and leaves the registry (hence the persisted document
derived from it) exactly as after the first call: the nested-map insertion
has set semantics. -/
theorem claim_C8_idempotent (engines : List RuleEngine) (fs : String → FSEntry)
    (resolve : String → String → String) (lang : String) (ps : List String)
    (m : RulePathMap) (r : List String) (m' : RulePathMap)
    (h : addPathsForLanguage engines fs resolve lang ps m = .ok (r, m')) :
    addPathsForLanguage engines fs resolve lang ps m' = .ok (r, m') := by
  cases hex : expandPaths fs resolve ps with
  | error e =>
      simp [addPathsForLanguage, hex, Bind.bind, Except.bind] at h
  | ok entries =>
      simp only [addPathsForLanguage, hex, Bind.bind, Except.bind] at h ⊢
      cases hc : addPathsCore engines lang entries m with
      | error e =>
          rw [hc] at h
          simp [Functor.map, Except.map] at h
      | ok m2 =>
          rw [hc] at h
          simp only [Functor.map, Except.map, Except.ok.injEq, Prod.mk.injEq] at h
          obtain ⟨rfl, rfl⟩ := h
          have hcont : ∀ e ∈ r, ∃ eng,
              determineEngineForPath engines e = some eng ∧
              containsB m' eng.name lang e = true := by
            intro e he
            obtain ⟨eng, hf⟩ := addPathsCore_attributable hc e he
            exact ⟨eng, hf, addPathsCore_contains hc e he eng hf⟩
          rw [addPathsCore_of_contained hcont]
          simp [Functor.map, Except.map, pure, Except.pure]

/-- Witness for C8: re-adding the already-registered archive is a no-op. -/
theorem claim_C8_witness :
    addPathsForLanguage [jarMatchEngine] fsDemo resolveJoin "apex"
      ["/rules/MyRules.jar"] mAfterAdd
      = .ok (["/rules/MyRules.jar"], mAfterAdd) :=
  claim_C8_idempotent [jarMatchEngine] fsDemo resolveJoin "apex"
    ["/rules/MyRules.jar"] [] ["/rules/MyRules.jar"] mAfterAdd (by decide)

/-- C9: `BaseEslintEngine.matchPath` returns `false` for every path, so
`determineEngineForPath` never attributes a path to an engine whose
`matchPath` is the eslint one, and `addPathsForLanguage` never creates a
registry entry keyed by an eslint-family engine name. -/
theorem claim_C9_eslint_never_attributed :
    (∀ p, baseEslintMatchPath p = false) ∧
    (∀ (engines : List RuleEngine) (p : String) (e : RuleEngine),
      (∀ eng ∈ engines, eng.name ∈ eslintFamilyNames →
        ∀ q, eng.matchPath q = baseEslintMatchPath q) →
      determineEngineForPath engines p = some e →
      e.name ∉ eslintFamilyNames) ∧
    (∀ (engines : List RuleEngine) (fs : String → FSEntry)
      (resolve : String → String → String) (lang : String) (ps : List String)
      (m : RulePathMap) (r : List String) (m' : RulePathMap),
      (∀ eng ∈ engines, eng.name ∈ eslintFamilyNames →
        ∀ q, eng.matchPath q = baseEslintMatchPath q) →
      noEslintKeys m = true →
      addPathsForLanguage engines fs resolve lang ps m = .ok (r, m') →
      noEslintKeys m' = true) := by
  refine ⟨fun p => rfl, ?_, ?_⟩
  · intro engines p e hes hf hmem
    have hf' : engines.find? (fun e => e.matchPath p) = some e := hf
    have hin : e ∈ engines := List.mem_of_find?_eq_some hf'
    have hmp : e.matchPath p = true := by simpa using List.find?_some hf'
    rw [hes e hin hmem p] at hmp
    simp [baseEslintMatchPath] at hmp
  · intro engines fs resolve lang ps m r m' hes hm hadd
    cases hex : expandPaths fs resolve ps with
    | error e =>
        simp [addPathsForLanguage, hex, Bind.bind, Except.bind] at hadd
    | ok entries =>
        simp only [addPathsForLanguage, hex, Bind.bind, Except.bind] at hadd
        cases hc : addPathsCore engines lang entries m with
        | error e =>
            rw [hc] at hadd
            simp [Functor.map, Except.map] at hadd
        | ok m2 =>
            rw [hc] at hadd
            simp only [Functor.map, Except.map, Except.ok.injEq,
              Prod.mk.injEq] at hadd
            obtain ⟨rfl, rfl⟩ := hadd
            apply noEslintKeys_addPathsCore hc hm
            intro e he eng hf
            have hf' : engines.find? (fun en => en.matchPath e) = some eng := hf
            have hin : eng ∈ engines := List.mem_of_find?_eq_some hf'
            have hmp : eng.matchPath e = true := by simpa using List.find?_some hf'
            by_cases hmem : eng.name ∈ eslintFamilyNames
            · rw [hes eng hin hmem e] at hmp
              simp [baseEslintMatchPath] at hmp
            · simp [keyNotEslint, hmem]

/-- Witness for C9: adding a rule archive with both an eslint engine and a
jar-matching engine registered attributes it to the jar engine only, and
the resulting registry has no eslint-family key. -/
theorem claim_C9_witness :
    noEslintKeys mAfterAdd = true ∧ baseEslintMatchPath "/rules/MyRules.jar" = false := by
  have hes : ∀ eng ∈ [eslintEngine, jarMatchEngine],
      eng.name ∈ eslintFamilyNames →
      ∀ q, eng.matchPath q = baseEslintMatchPath q := by
    intro eng hmem hname q
    rcases List.mem_cons.mp hmem with rfl | hmem2
    · rfl
    · rcases List.mem_cons.mp hmem2 with rfl | hmem3
      · exact absurd hname (by decide)
      · cases hmem3
  refine ⟨?_, (claim_C9_eslint_never_attributed.1 "/rules/MyRules.jar")⟩
  exact claim_C9_eslint_never_attributed.2.2 [eslintEngine, jarMatchEngine]
    fsDemo resolveJoin "apex" ["/rules/MyRules.jar"] [] ["/rules/MyRules.jar"]
    mAfterAdd hes (by decide) (by decide)

/-- C10 counterexample: a rule whose `defaultConfig` is present but is the
falsy empty string is configured at `'error'`, not at its `defaultConfig`:
line 275 tests JS truthiness (`rule.defaultConfig || 'error'`), not
presence. -/
theorem claim_C10_counterexample :
    (Rule.mk "no-empty" (some (.str ""))).defaultConfig = some (.str "") ∧
    configureRules [Rule.mk "no-empty" (some (.str ""))]
      = [("no-empty", .str "error")] ∧
    (ESRuleConfig.str "error" ≠ .str "") := by
  refine ⟨by decide, by decide, by decide⟩

/-- C10 amended: the configured-rules object is empty exactly when the rule
list is empty; in that case `run` returns `[]` without invoking the
underlying engine on any target; otherwise each rule name is configured at
`rule.defaultConfig || 'error'` — its default config when that is present
and truthy, and `'error'` when it is absent or falsy (last write wins for
duplicate names). -/
theorem claim_C10_amended :
    (∀ rules : List Rule, configureRules rules = [] ↔ rules = []) ∧
    (∀ (α : Type) (rules : List Rule) (targets : List RuleTarget)
      (fup : List String → List String) (exec : List String → List α),
      configureRules rules = [] → runEngine rules targets fup exec = ([], [])) ∧
    (∀ (rules : List Rule) (n : String),
      lookupA (configureRules rules) n =
        (rules.reverse.find? (fun r => decide (r.name = n))).map
          (fun r => configuredValue r.defaultConfig)) := by
  refine ⟨?_, ?_, ?_⟩
  · intro rules
    constructor
    · intro h
      cases rules with
      | nil => rfl
      | cons r rest =>
          exact absurd h (by
            rw [configureRules, List.foldl_cons]
            exact configureRules_fold_ne_nil rest _ (setA_ne_nil _ _ _))
    · rintro rfl
      rfl
  · intro α rules targets fup exec h
    simp [runEngine, h]
  · intro rules n
    rw [configureRules, lookupA_configure_fold]
    cases rules.reverse.find? (fun r => decide (r.name = n)) with
    | some r => rfl
    | none => rfl

/-- Witness for C10 at concrete inputs. -/
theorem claim_C10_witness :
    runEngine ([] : List Rule) [RuleTarget.mk "/t" false ["a.js"]] id
      (fun ps => [ps.length]) = ([], []) ∧
    lookupA (configureRules
      [Rule.mk "r1" (some (.str "warn")), Rule.mk "r2" none]) "r2"
      = some (.str "error") := by
  refine ⟨claim_C10_amended.2.1 Nat [] _ _ _ rfl, ?_⟩
  have h := claim_C10_amended.2.2
    [Rule.mk "r1" (some (.str "warn")), Rule.mk "r2" none] "r2"
  rw [h]
  decide
